import Mathlib

/-!
# PrintEye `tools/gen_csum.c`: G-code checksum generator

A shallow embedding of `csum` and `main` from `tools/gen_csum.c`, and the
properties of the checksum and of the printed lines.

Modelling choices:

* memory holds bytes (`Fin 256`); a command buffer `cmd` is the list of the
  bytes of the object `cmd` points to, and a read at an index outside of it
  has no defined result (`none`);
* whether plain `char` is signed is implementation-defined, so every
  definition takes it as the parameter `charSigned`;
* `int` values are mathematical integers: `^` and `&` on `int` act on the
  two's complement representation, which is what `Int.xor` and `Int.land`
  compute, and neither can leave the range of `int`;
* standard output is the list of bytes written so far, passed explicitly.
-/

namespace GenCsum

/-! ## The program -/

/-- A byte of memory. -/
abbrev Byte := Fin 256

/-- The byte with the given code (reduced modulo 256). -/
def byteOfNat (n : Nat) : Byte := ⟨n % 256, Nat.mod_lt n (by decide)⟩

/-- The byte of the character `*`. -/
def star : Byte := byteOfNat '*'.toNat

/-- The byte of the line break `\n`. -/
def newline : Byte := byteOfNat '\n'.toNat

/-- The value of a `char` object holding byte `b`, promoted to `int`: with a
signed `char` the bytes from `0x80` on are the negative values `b - 256`. -/
def charVal (charSigned : Bool) (b : Byte) : Int :=
  if charSigned && decide (128 ≤ b.val) then (b.val : Int) - 256 else (b.val : Int)

/-- The `for` loop of `csum`:
`for(int i = 0; cmd[i] != '*' && cmd[i] != NULL; i++) cs = cs ^ cmd[i];`
started at index `i` with accumulator `cs`. Each unit of `fuel` pays for one
evaluation of the loop condition. The result is the pair of `i` and `cs` when
the loop is left; `none` when the fuel runs out or `cmd[i]` is read outside
the buffer. -/
def csumLoop (charSigned : Bool) (cmd : List Byte) : Nat → Nat → Int → Option (Nat × Int)
  | 0, _, _ => none
  | fuel + 1, i, cs =>
    match cmd[i]? with
    | none => none
    | some c =>
      if charVal charSigned c ≠ ('*'.toNat : Int) ∧ charVal charSigned c ≠ 0 then
        csumLoop charSigned cmd fuel (i + 1) (Int.xor cs (charVal charSigned c))
      else
        some (i, cs)

/-- Lines 9 to 12 of `csum`: `int cs = 0;`, the scan loop, and `cs &= 0xff;`.
The value is `cs` as it is handed to `printf`. The loop reads `cmd[i]` for
increasing `i`, so `cmd.length + 1` condition evaluations always suffice. -/
def csumValue (charSigned : Bool) (cmd : List Byte) : Option Int :=
  match csumLoop charSigned cmd (cmd.length + 1) 0 0 with
  | none => none
  | some (_, cs) => some (Int.land cs 0xff)

/-- The `%s` conversion of `printf`: the bytes of the buffer up to, and not
including, the first NUL byte; `none` when the buffer holds no NUL byte. -/
def fmtS : List Byte → Option (List Byte)
  | [] => none
  | c :: rest => if c = 0 then some [] else (fmtS rest).map (fun r => c :: r)

/-- The `%u` conversion of `printf` applied to an `int` argument: the argument
is read as a 32-bit `unsigned int` and written in decimal. -/
def fmtU (v : Int) : List Byte :=
  (Nat.toDigits 10 (v % 2 ^ 32).toNat).map (fun d => byteOfNat d.toNat)

/-- The function `csum`: computes the checksum of `cmd` and appends the text of
`printf("%s*%u\n",cmd,cs)` to the standard output `out`. -/
def csum (charSigned : Bool) (cmd : List Byte) (out : List Byte) : Option (List Byte) :=
  match csumValue charSigned cmd with
  | none => none
  | some cs =>
    match fmtS cmd with
    | none => none
    | some str => some (out ++ str ++ [star] ++ fmtU cs ++ [newline])

/-- The array a string literal denotes: the codes of its characters (the
literals of this program are ASCII) followed by the terminating NUL. -/
def strLit (s : String) : List Byte :=
  s.toList.map (fun c => byteOfNat c.toNat) ++ [0]

/-- The function `main`: six calls of `csum` on string literals, in source
order, starting from an empty standard output. -/
def main (charSigned : Bool) : Option (List Byte) := do
  let out ← csum charSigned (strLit "M408 S0") []
  let out ← csum charSigned (strLit "M24") out
  let out ← csum charSigned (strLit "M25") out
  let out ← csum charSigned (strLit "M112") out
  let out ← csum charSigned (strLit "M118 P2 S\"//action:pause\"") out
  let out ← csum charSigned (strLit "M118 P2 S\"//action:resume\"") out
  pure out

/-- The bytes of a text, without a terminator. -/
def bytesOf (s : String) : List Byte :=
  s.toList.map (fun c => byteOfNat c.toNat)

/-- The accumulator after the loop body `cs = cs ^ cmd[i]` has run over the
bytes of `s` in order, starting from `cs`. -/
def xorAcc (charSigned : Bool) (cs : Int) (s : List Byte) : Int :=
  s.foldl (fun a c => Int.xor a (charVal charSigned c)) cs

/-- The bitwise XOR of the byte values (each in `0..255`) of `s`, starting
from `a`. -/
def xorBytesFrom (a : Nat) (s : List Byte) : Nat :=
  s.foldl (fun x b => x ^^^ b.val) a

/-- The bitwise XOR of the byte values of all the bytes of `s`. -/
def xorBytes (s : List Byte) : Nat := xorBytesFrom 0 s

/-- A byte at which the loop of `csum` goes on: neither `*` nor NUL. -/
def scanned (c : Byte) : Prop := c ≠ star ∧ c ≠ 0

instance (c : Byte) : Decidable (scanned c) := by unfold scanned; infer_instance

/-- The part of a buffer the loop of `csum` runs over: its bytes before the
first byte that is `*` or NUL. -/
def scanPart (s : List Byte) : List Byte := s.takeWhile (fun c => decide (scanned c))

/-- The number a list of decimal digit characters denotes. -/
def decimalValue (ds : List Byte) : Nat :=
  ds.foldl (fun a d => 10 * a + (d.val - '0'.toNat)) 0

/-- The text `ds` is the decimal numeral of `v`: it is not empty, holds only
the characters `0` to `9` (so no sign), starts with `0` only when it is the
single digit `0`, and denotes `v`. -/
def IsDecimalOf (ds : List Byte) (v : Nat) : Prop :=
  ds ≠ [] ∧ (∀ d ∈ ds, '0'.toNat ≤ d.val ∧ d.val ≤ '9'.toNat) ∧
    (ds.head? = some (byteOfNat '0'.toNat) → ds = [byteOfNat '0'.toNat]) ∧
    decimalValue ds = v

/-- A boolean test for `IsDecimalOf`. -/
def isDecimalOfB (ds : List Byte) (v : Nat) : Bool :=
  !ds.isEmpty && ds.all (fun d => decide ('0'.toNat ≤ d.val) && decide (d.val ≤ '9'.toNat)) &&
    (ds.head? != some (byteOfNat '0'.toNat) || ds == [byteOfNat '0'.toNat]) &&
    decimalValue ds == v

/-- Calling `csum` on each command of a list in turn, each call appending to
the output the call before it left. -/
def csumAll (charSigned : Bool) : List (List Byte) → List Byte → Option (List Byte)
  | [], out => some out
  | cmd :: cmds, out =>
    match csum charSigned cmd out with
    | none => none
    | some out1 => csumAll charSigned cmds out1

/-- The lines the commands of a list print when `csum` is called on each of
them on its own, from an empty output. -/
def csumLines (charSigned : Bool) : List (List Byte) → Option (List (List Byte))
  | [] => some []
  | cmd :: cmds =>
    match csum charSigned cmd [] with
    | none => none
    | some line => (csumLines charSigned cmds).map (fun lines => line :: lines)

/-- The six commands of `main`, in source order. -/
def mainCommands : List (List Byte) :=
  [strLit "M408 S0", strLit "M24", strLit "M25", strLit "M112",
   strLit "M118 P2 S\"//action:pause\"", strLit "M118 P2 S\"//action:resume\""]

/-- The concatenation of a list of lines. -/
def concatLines (lines : List (List Byte)) : List Byte :=
  lines.foldr (fun line acc => line ++ acc) []

/-- The number of bytes of `s` from `0x80` on: those a signed `char` holds as
a negative value. -/
def highCount (s : List Byte) : Nat := s.countP (fun b => decide (128 ≤ b.val))

/-- The `int` whose low 8 bits are those of `a` and whose bits from bit 8 on
are all ones when `n` is odd and all zeros when `n` is even. -/
def signExt (n a : Nat) : Int := if n % 2 = 1 then (a : Int) - 256 else (a : Int)

/-! ## Auxiliary lemmas -/

theorem land_xor_mask (x y : Int) :
    Int.land (Int.xor x y) 255 = Int.xor (Int.land x 255) (Int.land y 255) := by
  have h255 : (255 : Int) = ((255 : Nat) : Int) := rfl
  rw [h255]
  cases x <;> cases y <;> simp only [Int.xor, Int.land, Int.ofNat_eq_coe] <;> norm_cast <;>
    apply Nat.eq_of_testBit_eq <;> intro i <;>
    simp [Nat.testBit_xor, Nat.testBit_and, Nat.testBit_ldiff] <;>
    cases Nat.testBit _ i <;> cases Nat.testBit _ i <;> simp

theorem ldiff_mask_compl (n : Nat) (h : n < 256) : Nat.ldiff 255 (255 - n) = n := by
  apply Nat.eq_of_testBit_eq
  intro i
  have h1 : 255 - n = 2 ^ 8 - (n + 1) := by omega
  have h2 : (255 : Nat) = 2 ^ 8 - 1 := by norm_num
  rw [Nat.testBit_ldiff, h1, Nat.testBit_two_pow_sub_succ (by omega), h2,
    Nat.testBit_two_pow_sub_one]
  by_cases hi : i < 8
  · simp [hi]
  · have hlt : n < 2 ^ i :=
      lt_of_lt_of_le h (le_trans (by norm_num) (Nat.pow_le_pow_right (by norm_num) (not_lt.mp hi)))
    simp [hi, Nat.testBit_lt_two_pow hlt]

theorem land_byte (c : Byte) : Int.land (c.val : Int) 255 = (c.val : Int) := by
  show ((c.val &&& 255 : Nat) : Int) = (c.val : Int)
  have h2 : (255 : Nat) = 2 ^ 8 - 1 := by norm_num
  rw [h2, Nat.and_pow_two_sub_one_eq_mod]
  have := c.isLt
  norm_cast
  omega

theorem land_charVal (charSigned : Bool) (c : Byte) :
    Int.land (charVal charSigned c) 255 = (c.val : Int) := by
  unfold charVal
  split
  · rename_i h
    simp only [Bool.and_eq_true, decide_eq_true_eq] at h
    have hc := c.isLt
    have e : (c.val : Int) - 256 = Int.negSucc (255 - c.val) := by
      rw [Int.negSucc_eq]; omega
    rw [e]
    show ((Nat.ldiff 255 (255 - c.val) : Nat) : Int) = (c.val : Int)
    rw [ldiff_mask_compl _ hc]
  · exact land_byte c

theorem land_natCast (n : Nat) : Int.land (n : Int) 255 = ((n &&& 255 : Nat) : Int) := rfl

theorem xor_natCast (m n : Nat) : Int.xor (m : Int) (n : Int) = ((m ^^^ n : Nat) : Int) := rfl

set_option maxRecDepth 100000 in
theorem charVal_stop_iff (charSigned : Bool) (c : Byte) :
    (charVal charSigned c ≠ ('*'.toNat : Int) ∧ charVal charSigned c ≠ 0) ↔
      (c ≠ star ∧ c ≠ 0) := by
  revert c; cases charSigned <;> decide

theorem land_xorAcc (charSigned : Bool) (s : List Byte) :
    ∀ (cs : Int) (a : Nat), Int.land cs 255 = Int.land (a : Int) 255 →
      Int.land (xorAcc charSigned cs s) 255 = Int.land (xorBytesFrom a s : Int) 255 := by
  induction s with
  | nil => intro cs a h; simpa [xorAcc, xorBytesFrom] using h
  | cons c s ih =>
    intro cs a h
    have step : Int.land (Int.xor cs (charVal charSigned c)) 255
        = Int.land ((a ^^^ c.val : Nat) : Int) 255 := by
      rw [land_xor_mask, land_charVal, h, ← xor_natCast, land_xor_mask, land_byte]
    simpa [xorAcc, xorBytesFrom] using ih _ _ step

theorem land_xorAcc_zero (charSigned : Bool) (s : List Byte) :
    Int.land (xorAcc charSigned 0 s) 255 = ((xorBytes s &&& 255 : Nat) : Int) := by
  rw [land_xorAcc charSigned s 0 0 rfl, land_natCast]; rfl

theorem getElem?_append_cons (pre : List Byte) (c : Byte) (rest : List Byte) :
    (pre ++ c :: rest)[pre.length]? = some c := by
  induction pre with
  | nil => simp
  | cons a pre ih => simpa using ih

theorem csumLoop_run (charSigned : Bool) (s : List Byte) :
    ∀ (pre : List Byte) (t : Byte) (rest : List Byte) (fuel : Nat) (cs : Int),
      (∀ c ∈ s, scanned c) → ¬ scanned t → s.length < fuel →
      csumLoop charSigned (pre ++ s ++ t :: rest) fuel pre.length cs
        = some (pre.length + s.length, xorAcc charSigned cs s) := by
  induction s with
  | nil =>
    intro pre t rest fuel cs _ ht hf
    obtain ⟨f, rfl⟩ : ∃ f, fuel = f + 1 := ⟨fuel - 1, by simp at hf; omega⟩
    have hstop : ¬ (charVal charSigned t ≠ ('*'.toNat : Int) ∧ charVal charSigned t ≠ 0) :=
      fun h => ht ((charVal_stop_iff charSigned t).mp h)
    simp only [List.append_nil, csumLoop, getElem?_append_cons, if_neg hstop]
    simp [xorAcc]
  | cons c s ih =>
    intro pre t rest fuel cs hs ht hf
    obtain ⟨f, rfl⟩ : ∃ f, fuel = f + 1 := ⟨fuel - 1, by simp at hf; omega⟩
    have hgo : charVal charSigned c ≠ ('*'.toNat : Int) ∧ charVal charSigned c ≠ 0 :=
      (charVal_stop_iff charSigned c).mpr (hs c (List.mem_cons_self c s))
    have hbuf : pre ++ c :: s ++ t :: rest = (pre ++ [c]) ++ s ++ t :: rest := by simp
    have hget : (pre ++ c :: s ++ t :: rest)[pre.length]? = some c := by
      rw [List.append_assoc, List.cons_append]; exact getElem?_append_cons _ _ _
    have hlen : pre.length + 1 = (pre ++ [c]).length := by simp
    simp only [csumLoop, hget, if_pos hgo]
    rw [hbuf, hlen, ih (pre ++ [c]) t rest f _ (fun x hx => hs x (List.mem_cons_of_mem c hx)) ht
      (by simp at hf; omega)]
    simp [xorAcc]
    omega

theorem csumLoop_short (charSigned : Bool) (s : List Byte) :
    ∀ (pre : List Byte) (rest : List Byte) (fuel : Nat) (cs : Int),
      (∀ c ∈ s, scanned c) → fuel ≤ s.length →
      csumLoop charSigned (pre ++ s ++ rest) fuel pre.length cs = none := by
  induction s with
  | nil =>
    intro pre rest fuel cs _ hf
    have : fuel = 0 := by simpa using hf
    subst this
    rfl
  | cons c s ih =>
    intro pre rest fuel cs hs hf
    cases fuel with
    | zero => rfl
    | succ f =>
      have hgo : charVal charSigned c ≠ ('*'.toNat : Int) ∧ charVal charSigned c ≠ 0 :=
        (charVal_stop_iff charSigned c).mpr (hs c (List.mem_cons_self c s))
      have hbuf : pre ++ c :: s ++ rest = (pre ++ [c]) ++ s ++ rest := by simp
      have hget : (pre ++ c :: s ++ rest)[pre.length]? = some c := by
        rw [List.append_assoc, List.cons_append]; exact getElem?_append_cons _ _ _
      have hlen : pre.length + 1 = (pre ++ [c]).length := by simp
      simp only [csumLoop, hget, if_pos hgo]
      rw [hbuf, hlen]
      exact ih (pre ++ [c]) rest f _ (fun x hx => hs x (List.mem_cons_of_mem c hx))
        (by simp at hf; omega)

/-- From index 0: the loop leaves at the first byte that is `*` or NUL. -/
theorem csumLoop_zero (charSigned : Bool) (s : List Byte) (t : Byte) (rest : List Byte)
    (fuel : Nat) (hs : ∀ c ∈ s, scanned c) (ht : ¬ scanned t) (hf : s.length < fuel) :
    csumLoop charSigned (s ++ t :: rest) fuel 0 0 = some (s.length, xorAcc charSigned 0 s) := by
  have h := csumLoop_run charSigned s [] t rest fuel 0 hs ht hf
  simpa using h

theorem csumValue_eq (charSigned : Bool) (s : List Byte) (t : Byte) (rest : List Byte)
    (hs : ∀ c ∈ s, scanned c) (ht : ¬ scanned t) :
    csumValue charSigned (s ++ t :: rest) = some ((xorBytes s &&& 255 : Nat) : Int) := by
  unfold csumValue
  rw [csumLoop_zero charSigned s t rest _ hs ht (by simp; omega)]
  show some (Int.land (xorAcc charSigned 0 s) 255) = _
  rw [land_xorAcc_zero]

theorem fmtS_eq (s : List Byte) (rest : List Byte) (hnul : (0 : Byte) ∉ s) :
    fmtS (s ++ 0 :: rest) = some s := by
  induction s with
  | nil => simp [fmtS]
  | cons c s ih =>
    have hc : c ≠ 0 := fun h => hnul (h ▸ List.mem_cons_self c s)
    have hs : (0 : Byte) ∉ s := fun h => hnul (List.mem_cons_of_mem c h)
    simp [fmtS, hc, ih hs]

theorem scanPart_scanned (s : List Byte) : ∀ c ∈ scanPart s, scanned c := by
  intro c hc
  have h := List.mem_takeWhile_imp hc
  simpa using h

theorem scanPart_split (s : List Byte) (rest : List Byte) :
    ∃ t rest1, s ++ 0 :: rest = scanPart s ++ t :: rest1 ∧ ¬ scanned t := by
  induction s with
  | nil => exact ⟨0, rest, rfl, fun h => h.2 rfl⟩
  | cons c s ih =>
    by_cases hc : scanned c
    · obtain ⟨t, rest1, h1, h2⟩ := ih
      refine ⟨t, rest1, ?_, h2⟩
      simp only [scanPart, List.takeWhile_cons, hc, decide_True, if_true, List.cons_append]
      rw [h1]; rfl
    · refine ⟨c, s ++ 0 :: rest, ?_, hc⟩
      simp [scanPart, List.takeWhile_cons, hc]

theorem scanPart_of_no_nul (s : List Byte) (hnul : (0 : Byte) ∉ s) :
    scanPart s = s.takeWhile (fun c => decide (c ≠ star)) := by
  induction s with
  | nil => rfl
  | cons c s ih =>
    have hc : c ≠ 0 := fun h => hnul (h ▸ List.mem_cons_self c s)
    have hs : (0 : Byte) ∉ s := fun h => hnul (List.mem_cons_of_mem c h)
    have ih1 := ih hs
    unfold scanPart at ih1 ⊢
    rw [List.takeWhile_cons, List.takeWhile_cons, ih1]
    by_cases h : c = star
    · have h1 : ¬ scanned c := fun x => x.1 h
      rw [if_neg (by simpa using h1), if_neg (by simp [h])]
    · have h1 : scanned c := ⟨h, hc⟩
      simp [h, h1]

theorem takeWhile_ne_self (a : Byte) (s : List Byte) (h : a ∉ s) :
    s.takeWhile (fun c => decide (c ≠ a)) = s := by
  induction s with
  | nil => rfl
  | cons c s ih =>
    have hc : c ≠ a := fun e => h (e ▸ List.mem_cons_self c s)
    have hs : a ∉ s := fun e => h (List.mem_cons_of_mem c e)
    rw [List.takeWhile_cons, ih hs]
    simp [hc]

theorem takeWhile_ne_append (a : Byte) (p t : List Byte) (h : a ∉ p) :
    (p ++ a :: t).takeWhile (fun c => decide (c ≠ a)) = p := by
  induction p with
  | nil => simp [List.takeWhile_cons]
  | cons c p ih =>
    have hc : c ≠ a := fun e => h (e ▸ List.mem_cons_self c p)
    have hs : a ∉ p := fun e => h (List.mem_cons_of_mem c e)
    rw [List.cons_append, List.takeWhile_cons, ih hs]
    simp [hc]

/-- The checksum of any buffer that holds a NUL byte. -/
theorem csumValue_buf (charSigned : Bool) (s rest : List Byte) :
    csumValue charSigned (s ++ 0 :: rest)
      = some ((xorBytes (scanPart s) &&& 255 : Nat) : Int) := by
  obtain ⟨t, rest1, h1, h2⟩ := scanPart_split s rest
  rw [h1]
  exact csumValue_eq charSigned _ t rest1 (scanPart_scanned s) h2

theorem fmtS_buf (s rest : List Byte) :
    fmtS (s ++ 0 :: rest) = some (s.takeWhile (fun c => decide (c ≠ 0))) := by
  induction s with
  | nil => simp [fmtS]
  | cons c s ih =>
    by_cases hc : c = 0
    · simp [fmtS, hc]
    · simp [fmtS, hc, ih]

theorem csum_buf (charSigned : Bool) (s rest out : List Byte) :
    csum charSigned (s ++ 0 :: rest) out
      = some (out ++ s.takeWhile (fun c => decide (c ≠ 0)) ++ [star]
          ++ fmtU ((xorBytes (scanPart s) &&& 255 : Nat) : Int) ++ [newline]) := by
  unfold csum
  rw [csumValue_buf, fmtS_buf]

theorem isDecimalOfB_sound (ds : List Byte) (v : Nat) (h : isDecimalOfB ds v = true) :
    IsDecimalOf ds v := by
  simp only [isDecimalOfB, Bool.and_eq_true, Bool.or_eq_true, Bool.not_eq_true_eq_eq_false,
    List.isEmpty_eq_false, List.all_eq_true, decide_eq_true_eq, bne_iff_ne, beq_iff_eq,
    Bool.not_eq_eq_eq_not, Bool.not_true, ne_eq] at h
  obtain ⟨⟨⟨h1, h2⟩, h3⟩, h4⟩ := h
  refine ⟨?_, h2, ?_, h4⟩
  · intro e; subst e; simp at h1
  · intro e
    rcases h3 with h3 | h3
    · exact absurd e h3
    · exact h3

set_option maxRecDepth 100000 in
theorem fmtU_decimal_fin : ∀ n : Fin 256, isDecimalOfB (fmtU (n.val : Int)) n.val = true := by
  decide!

/-- For a value in `0..255`, `%u` writes its decimal numeral. -/
theorem fmtU_decimal (n : Nat) (h : n ≤ 255) : IsDecimalOf (fmtU (n : Int)) n :=
  isDecimalOfB_sound _ _ (fmtU_decimal_fin ⟨n, by omega⟩)

theorem and_255_le (n : Nat) : n &&& 255 ≤ 255 := Nat.and_le_right

theorem scanned_of_not_mem (s : List Byte) (hstar : star ∉ s) (hnul : (0 : Byte) ∉ s) :
    ∀ c ∈ s, scanned c :=
  fun _ hc => ⟨fun e => hstar (e ▸ hc), fun e => hnul (e ▸ hc)⟩

theorem not_scanned_star : ¬ scanned star := fun h => h.1 rfl

theorem not_scanned_nul : ¬ scanned 0 := fun h => h.2 rfl

/-- The checksum of a string with no NUL byte inside: the masked XOR of its
bytes before the first `*`. -/
theorem csumValue_str (charSigned : Bool) (s rest : List Byte) (hnul : (0 : Byte) ∉ s) :
    csumValue charSigned (s ++ 0 :: rest)
      = some ((xorBytes (s.takeWhile (fun c => decide (c ≠ star))) &&& 0xff : Nat) : Int) := by
  have hv := csumValue_buf charSigned s rest
  rw [scanPart_of_no_nul s hnul] at hv
  exact hv

/-- The line printed for a string with no NUL byte inside. -/
theorem csum_str (charSigned : Bool) (s rest out : List Byte) (hnul : (0 : Byte) ∉ s) :
    csum charSigned (s ++ 0 :: rest) out
      = some (out ++ s ++ [star]
          ++ fmtU ((xorBytes (s.takeWhile (fun c => decide (c ≠ star))) &&& 0xff : Nat) : Int)
          ++ [newline]) := by
  have hp := csum_buf charSigned s rest out
  rw [scanPart_of_no_nul s hnul, takeWhile_ne_self 0 s hnul] at hp
  exact hp

/-! ## The checksum -/

/-- C1: for every string `s` with no `*` and no NUL byte, held in a buffer
that ends it with a NUL, the checksum `csum` computes is the bitwise XOR of
the byte values of all the bytes of `s`, masked to its low 8 bits, whether
`char` is signed or not. -/
theorem csum_checksum_no_star (charSigned : Bool) (s rest : List Byte)
    (hstar : star ∉ s) (hnul : (0 : Byte) ∉ s) :
    csumValue charSigned (s ++ 0 :: rest) = some ((xorBytes s &&& 0xff : Nat) : Int) :=
  csumValue_eq charSigned s 0 rest (scanned_of_not_mem s hstar hnul) not_scanned_nul

/-- Witness of C1 at the bytes `0xC3 0xA9 0x4D` with a signed `char`. -/
theorem csum_checksum_no_star_witness :
    star ∉ ([195, 169, 77] : List Byte) ∧ (0 : Byte) ∉ ([195, 169, 77] : List Byte) ∧
      csumValue true ([195, 169, 77] ++ 0 :: [])
        = some ((xorBytes [195, 169, 77] &&& 0xff : Nat) : Int) :=
  ⟨by decide, by decide,
    csum_checksum_no_star true [195, 169, 77] [] (by decide) (by decide)⟩

/-- C2: for a string `p ++ "*" ++ t` with no `*` and no NUL in `p`, the
checksum is the XOR, masked to 8 bits, of the bytes of `p` alone, and it is
the checksum of the string `p`: the `*` and the bytes after it add nothing. -/
theorem csum_checksum_star (charSigned : Bool) (p t rest rest1 : List Byte)
    (hstar : star ∉ p) (hnul : (0 : Byte) ∉ p) :
    csumValue charSigned (p ++ star :: t ++ 0 :: rest)
        = some ((xorBytes p &&& 0xff : Nat) : Int) ∧
      csumValue charSigned (p ++ star :: t ++ 0 :: rest)
        = csumValue charSigned (p ++ 0 :: rest1) := by
  have h1 : csumValue charSigned (p ++ star :: t ++ 0 :: rest)
      = some ((xorBytes p &&& 0xff : Nat) : Int) := by
    rw [List.append_assoc, List.cons_append]
    exact csumValue_eq charSigned p star _ (scanned_of_not_mem p hstar hnul) not_scanned_star
  exact ⟨h1, h1.trans (csumValue_eq charSigned p 0 rest1 (scanned_of_not_mem p hstar hnul)
    not_scanned_nul).symm⟩

/-- Witness of C2 at the string `AB*CD`. -/
theorem csum_checksum_star_witness :
    star ∉ bytesOf "AB" ∧ (0 : Byte) ∉ bytesOf "AB" ∧
      csumValue false (bytesOf "AB" ++ star :: bytesOf "CD" ++ 0 :: [])
        = some ((xorBytes (bytesOf "AB") &&& 0xff : Nat) : Int) ∧
      csumValue false (bytesOf "AB" ++ star :: bytesOf "CD" ++ 0 :: [])
        = csumValue false (bytesOf "AB" ++ 0 :: []) :=
  ⟨by decide, by decide,
    csum_checksum_star false (bytesOf "AB") (bytesOf "CD") [] [] (by decide) (by decide)⟩

/-! ## The printed line -/

/-- C3: for every string `s` (no NUL byte inside, ended by a NUL in its
buffer), `csum` appends to the output exactly the whole of `s`, one `*`, the
decimal numeral of the checksum (digits only, no leading zero), and a line
break; the checksum is the masked XOR of the bytes of `s` before its first
`*`. -/
theorem csum_prints (charSigned : Bool) (s rest out : List Byte) (hnul : (0 : Byte) ∉ s) :
    csumValue charSigned (s ++ 0 :: rest)
        = some ((xorBytes (s.takeWhile (fun c => decide (c ≠ star))) &&& 0xff : Nat) : Int) ∧
      csum charSigned (s ++ 0 :: rest) out
        = some (out ++ s ++ [star]
            ++ fmtU ((xorBytes (s.takeWhile (fun c => decide (c ≠ star))) &&& 0xff : Nat) : Int)
            ++ [newline]) ∧
      IsDecimalOf
        (fmtU ((xorBytes (s.takeWhile (fun c => decide (c ≠ star))) &&& 0xff : Nat) : Int))
        (xorBytes (s.takeWhile (fun c => decide (c ≠ star))) &&& 0xff) := by
  exact ⟨csumValue_str charSigned s rest hnul, csum_str charSigned s rest out hnul,
    fmtU_decimal _ (and_255_le _)⟩

/-- Witness of C3: the input `AB*CD` prints `AB*CD*3` and a line break. -/
theorem csum_prints_witness :
    (0 : Byte) ∉ bytesOf "AB*CD" ∧
      csum false (strLit "AB*CD") [] = some (bytesOf "AB*CD*3\n") :=
  ⟨by decide, (csum_prints false (bytesOf "AB*CD") [] [] (by decide)).2.1.trans (by decide)⟩

/-- C4: for every buffer that holds a NUL byte, whatever its other bytes
(those from `0x80` on included) and whatever the signedness of `char`, the
checksum `csum` computes and prints as a decimal numeral is in `0..255`. -/
theorem csum_value_range (charSigned : Bool) (s rest out : List Byte) :
    ∃ (v : Nat) (str : List Byte), v ≤ 255 ∧
      csumValue charSigned (s ++ 0 :: rest) = some (v : Int) ∧
      csum charSigned (s ++ 0 :: rest) out
        = some (out ++ str ++ [star] ++ fmtU (v : Int) ++ [newline]) ∧
      IsDecimalOf (fmtU (v : Int)) v :=
  ⟨xorBytes (scanPart s) &&& 255, s.takeWhile (fun c => decide (c ≠ 0)), and_255_le _,
    csumValue_buf charSigned s rest, csum_buf charSigned s rest out,
    fmtU_decimal _ (and_255_le _)⟩

theorem csum_out (charSigned : Bool) (cmd out : List Byte) :
    csum charSigned cmd out = (csum charSigned cmd []).map (fun line => out ++ line) := by
  unfold csum
  cases csumValue charSigned cmd with
  | none => rfl
  | some cs =>
    cases fmtS cmd with
    | none => rfl
    | some str => simp

/-- C5 as stated fails: for the input `*`, which begins with `*`, the output
is `**0` and a line break, not `*0` and a line break. -/
theorem csum_star_first_counterexample :
    csum false (strLit "*") [] = some (bytesOf "**0\n") ∧
      csum false (strLit "*") [] ≠ some (bytesOf "*0\n") := by
  decide

/-- C5, amended: for every string that is empty or begins with `*`, the loop
is left at once with the accumulator still zero, the checksum is 0, and the
output is the original string followed by `*0` and a line break; for the
empty string that is `*0` and a line break. -/
theorem csum_empty_or_star (charSigned : Bool) (s rest out : List Byte)
    (hnul : (0 : Byte) ∉ s) (h : s = [] ∨ s.head? = some star) :
    csumLoop charSigned (s ++ 0 :: rest) ((s ++ 0 :: rest).length + 1) 0 0 = some (0, 0) ∧
      csumValue charSigned (s ++ 0 :: rest) = some 0 ∧
      csum charSigned (s ++ 0 :: rest) out = some (out ++ s ++ bytesOf "*0\n") ∧
      (s = [] → csum charSigned (s ++ 0 :: rest) out = some (out ++ bytesOf "*0\n")) := by
  have hloop : csumLoop charSigned (s ++ 0 :: rest) ((s ++ 0 :: rest).length + 1) 0 0
      = some (0, 0) := by
    rcases h with h | h
    · subst h
      exact csumLoop_zero charSigned [] 0 rest _ (by simp) not_scanned_nul (by simp)
    · cases s with
      | nil => simp at h
      | cons c t =>
        have hc : c = star := by simpa using h
        subst hc
        exact csumLoop_zero charSigned [] star (t ++ 0 :: rest) _ (by simp) not_scanned_star
          (by simp)
  have htake : s.takeWhile (fun c => decide (c ≠ star)) = [] := by
    rcases h with h | h
    · subst h; rfl
    · cases s with
      | nil => rfl
      | cons c t =>
        have hc : c = star := by simpa using h
        subst hc
        simp [List.takeWhile_cons]
  have hv := csumValue_str charSigned s rest hnul
  have hp := csum_str charSigned s rest out hnul
  rw [htake] at hv hp
  have hout : csum charSigned (s ++ 0 :: rest) out = some (out ++ s ++ bytesOf "*0\n") := by
    rw [hp]
    have e : out ++ s ++ [star] ++ fmtU ((xorBytes [] &&& 0xff : Nat) : Int) ++ [newline]
        = out ++ s ++ ([star] ++ fmtU ((xorBytes [] &&& 0xff : Nat) : Int) ++ [newline]) := by
      simp
    have e2 : [star] ++ fmtU ((xorBytes [] &&& 0xff : Nat) : Int) ++ [newline]
        = bytesOf "*0\n" := by decide
    rw [e, e2]
  refine ⟨hloop, hv, hout, ?_⟩
  intro hs
  rw [hout, hs, List.append_nil]

/-- Witness of the amended C5 at the string `*AB`, which prints `*AB*0`. -/
theorem csum_empty_or_star_witness :
    (0 : Byte) ∉ bytesOf "*AB" ∧
      ((bytesOf "*AB" = [] ∨ (bytesOf "*AB").head? = some star) ∧
        csum true (strLit "*AB") [] = some (bytesOf "*AB*0\n")) :=
  ⟨by decide, by decide,
    (csum_empty_or_star true (bytesOf "*AB") [] [] (by decide) (by decide)).2.2.1.trans
      (by decide)⟩

/-- C6: for the input `M408 S0`, `csum` appends the line `M408 S0*50`; 50 is
the XOR of the ASCII codes of `M`, `4`, `0`, `8`, space, `S`, `0`, masked to
8 bits. -/
theorem csum_M408 (charSigned : Bool) (out : List Byte) :
    csum charSigned (strLit "M408 S0") out = some (out ++ bytesOf "M408 S0*50\n") ∧
      csumValue charSigned (strLit "M408 S0") = some 50 ∧
      ('M'.toNat ^^^ '4'.toNat ^^^ '0'.toNat ^^^ '8'.toNat ^^^ ' '.toNat ^^^ 'S'.toNat
          ^^^ '0'.toNat) &&& 0xff = 50 := by
  refine ⟨?_, ?_, by decide⟩
  · rw [csum_out]
    have h : csum charSigned (strLit "M408 S0") [] = some (bytesOf "M408 S0*50\n") := by
      cases charSigned <;> decide
    rw [h]; rfl
  · cases charSigned <;> decide

/-- C7: the whole output of `main` is the six lines of the six commands, in
source order, each command followed by `*`, its checksum and a line break,
and nothing else. -/
theorem main_output (charSigned : Bool) :
    main charSigned = some (bytesOf
      "M408 S0*50\nM24*75\nM25*74\nM112*127\nM118 P2 S\"//action:pause\"*18\nM118 P2 S\"//action:resume\"*121\n") := by
  cases charSigned <;> decide

/-- C8 as stated fails: the scan of `M24` XORs three characters, not four; the
loop is left with `i = 3`. -/
theorem csum_M24_counterexample :
    (csumLoop false (strLit "M24") ((strLit "M24").length + 1) 0 0).map (fun r => r.1)
        = some 3 ∧
      (csumLoop false (strLit "M24") ((strLit "M24").length + 1) 0 0).map (fun r => r.1)
        ≠ some 4 := by
  decide

/-- C8, amended: for the input `M24`, `csum` appends the line `M24*75`, the
checksum being computed as for `M408 S0` over the three characters of the
input: the scan XORs exactly the three characters `M`, `2`, `4` into the
accumulator and is left with `i = 3`. -/
theorem csum_M24 (charSigned : Bool) (out : List Byte) :
    csum charSigned (strLit "M24") out = some (out ++ bytesOf "M24*75\n") ∧
      csumLoop charSigned (strLit "M24") ((strLit "M24").length + 1) 0 0
        = some (3, xorAcc charSigned 0 (bytesOf "M24")) ∧
      (bytesOf "M24").length = 3 ∧
      csumValue charSigned (strLit "M24") = some 75 ∧
      ('M'.toNat ^^^ '2'.toNat ^^^ '4'.toNat) &&& 0xff = 75 := by
  refine ⟨?_, ?_, by decide, ?_, by decide⟩
  · rw [csum_out]
    have h : csum charSigned (strLit "M24") [] = some (bytesOf "M24*75\n") := by
      cases charSigned <;> decide
    rw [h]; rfl
  · cases charSigned <;> decide
  · cases charSigned <;> decide

theorem csumAll_eq (charSigned : Bool) (cmds : List (List Byte)) :
    ∀ out : List Byte, csumAll charSigned cmds out
      = (csumLines charSigned cmds).map (fun lines => out ++ concatLines lines) := by
  induction cmds with
  | nil => intro out; simp [csumAll, csumLines, concatLines]
  | cons cmd cmds ih =>
    intro out
    unfold csumAll csumLines
    rw [csum_out charSigned cmd out]
    cases csum charSigned cmd [] with
    | none => rfl
    | some line =>
      simp only [Option.map_some']
      rw [ih]
      cases csumLines charSigned cmds with
      | none => rfl
      | some lines => simp [concatLines]

/-- C9: `csum` keeps no state between calls. The checksum and the line printed
for a string depend only on the string: not on the output written before
(the line is appended to it unchanged) and not on the memory after the
terminating NUL. Calling `csum` on a list of commands in order writes the
concatenation of the lines each call prints on its own, and `main` is such a
run over its six commands. -/
theorem csum_stateless (charSigned : Bool) (cmds : List (List Byte))
    (s rest rest1 out out1 : List Byte) :
    csumValue charSigned (s ++ 0 :: rest) = csumValue charSigned (s ++ 0 :: rest1) ∧
      csum charSigned (s ++ 0 :: rest) out = csum charSigned (s ++ 0 :: rest1) out ∧
      (∃ line, csum charSigned (s ++ 0 :: rest) out = some (out ++ line) ∧
        csum charSigned (s ++ 0 :: rest) out1 = some (out1 ++ line)) ∧
      csumAll charSigned cmds out
        = (csumLines charSigned cmds).map (fun lines => out ++ concatLines lines) ∧
      main charSigned = csumAll charSigned mainCommands [] := by
  refine ⟨?_, ?_, ?_, csumAll_eq charSigned cmds out, ?_⟩
  · rw [csumValue_buf, csumValue_buf]
  · rw [csum_buf, csum_buf]
  · refine ⟨s.takeWhile (fun c => decide (c ≠ 0)) ++ [star]
      ++ fmtU ((xorBytes (scanPart s) &&& 255 : Nat) : Int) ++ [newline], ?_, ?_⟩
    · rw [csum_buf]; simp
    · rw [csum_buf]; simp
  · cases charSigned <;> decide

theorem scanPart_length_le (s : List Byte) : (scanPart s).length ≤ s.length := by
  induction s with
  | nil => simp [scanPart]
  | cons c s ih =>
    unfold scanPart at ih ⊢
    rw [List.takeWhile_cons]
    split
    · simpa using ih
    · simp

/-- C10: for every NUL-terminated string `s`, the loop of `csum` is left
without error after exactly `k` iterations, `k` being the index of the first
`*` of `s` if it has one and the length of `s` otherwise: the run inside
`csum` returns with `i = k`, so does every run allowed more than `k`
evaluations of the loop condition, and no run allowed at most `k` of them
comes to its end. -/
theorem csumLoop_iterations (charSigned : Bool) (s rest : List Byte) (hnul : (0 : Byte) ∉ s) :
    ∃ (k : Nat) (cs : Int),
      csumLoop charSigned (s ++ 0 :: rest) ((s ++ 0 :: rest).length + 1) 0 0 = some (k, cs) ∧
      (∀ fuel, k < fuel → csumLoop charSigned (s ++ 0 :: rest) fuel 0 0 = some (k, cs)) ∧
      (∀ fuel, fuel ≤ k → csumLoop charSigned (s ++ 0 :: rest) fuel 0 0 = none) ∧
      (star ∉ s → k = s.length) ∧
      (∀ p t, s = p ++ star :: t → star ∉ p → k = p.length) := by
  obtain ⟨t, rest1, hsplit, ht⟩ := scanPart_split s rest
  have hrun : ∀ fuel, (scanPart s).length < fuel →
      csumLoop charSigned (s ++ 0 :: rest) fuel 0 0
        = some ((scanPart s).length, xorAcc charSigned 0 (scanPart s)) := by
    intro fuel hf
    rw [hsplit]
    exact csumLoop_zero charSigned _ t rest1 fuel (scanPart_scanned s) ht hf
  refine ⟨(scanPart s).length, xorAcc charSigned 0 (scanPart s), ?_, hrun, ?_, ?_, ?_⟩
  · apply hrun
    have := scanPart_length_le s
    simp
    omega
  · intro fuel hf
    rw [hsplit]
    have h := csumLoop_short charSigned (scanPart s) [] (t :: rest1) fuel 0
      (scanPart_scanned s) hf
    simpa using h
  · intro hstar
    rw [scanPart_of_no_nul s hnul, takeWhile_ne_self star s hstar]
  · intro p t1 hs hp
    rw [scanPart_of_no_nul s hnul, hs, takeWhile_ne_append star p t1 hp]

/-- Witness of C10 at the string `AB*CD`. -/
theorem csumLoop_iterations_witness :
    (0 : Byte) ∉ bytesOf "AB*CD" ∧
      ∃ (k : Nat) (cs : Int),
        csumLoop false (bytesOf "AB*CD" ++ 0 :: [])
          ((bytesOf "AB*CD" ++ 0 :: []).length + 1) 0 0 = some (k, cs) ∧
        (∀ fuel, k < fuel → csumLoop false (bytesOf "AB*CD" ++ 0 :: []) fuel 0 0
          = some (k, cs)) ∧
        (∀ fuel, fuel ≤ k → csumLoop false (bytesOf "AB*CD" ++ 0 :: []) fuel 0 0 = none) ∧
        (star ∉ bytesOf "AB*CD" → k = (bytesOf "AB*CD").length) ∧
        (∀ p t, bytesOf "AB*CD" = p ++ star :: t → star ∉ p → k = p.length) :=
  ⟨by decide, csumLoop_iterations false (bytesOf "AB*CD") [] (by decide)⟩

/-! ## Signedness of `char` -/

set_option maxRecDepth 100000 in
theorem compl8_fin : ∀ x : Fin 256, 255 - x.val = 255 ^^^ x.val := by
  decide

theorem compl8 (x : Nat) (h : x < 256) : 255 - x = 255 ^^^ x := compl8_fin ⟨x, h⟩

theorem xor_lt_256 (a b : Nat) (ha : a < 256) (hb : b < 256) : a ^^^ b < 256 :=
  Nat.xor_lt_two_pow (n := 8) ha hb

theorem sub_256_eq_negSucc (a : Nat) (h : a < 256) :
    (a : Int) - 256 = Int.negSucc (255 ^^^ a) := by
  rw [← compl8 a h, Int.negSucc_eq]; omega

theorem xor_compl_right (a c : Nat) : a ^^^ (255 ^^^ c) = 255 ^^^ (a ^^^ c) := by
  rw [← Nat.xor_assoc, Nat.xor_comm a 255, Nat.xor_assoc]

theorem xor_compl_left (a c : Nat) : (255 ^^^ a) ^^^ c = 255 ^^^ (a ^^^ c) := by
  rw [Nat.xor_assoc]

theorem xor_compl_both (a c : Nat) : (255 ^^^ a) ^^^ (255 ^^^ c) = a ^^^ c := by
  rw [xor_compl_right, ← Nat.xor_assoc, ← Nat.xor_assoc, Nat.xor_self, Nat.zero_xor]

theorem charVal_signed_eq (c : Byte) :
    charVal true c = signExt (if 128 ≤ c.val then 1 else 0) c.val := by
  unfold charVal signExt
  by_cases h : 128 ≤ c.val <;> simp [h]

theorem charVal_unsigned_eq (c : Byte) : charVal false c = (c.val : Int) := by
  simp [charVal]

theorem charVal_low_eq (charSigned : Bool) (c : Byte) (h : c.val ≤ 127) :
    charVal charSigned c = (c.val : Int) := by
  have h1 : ¬ 128 ≤ c.val := by omega
  simp [charVal, h1]

theorem xor_signExt (m n a c : Nat) (ha : a < 256) (hc : c < 256) :
    Int.xor (signExt m a) (signExt n c) = signExt (m + n) (a ^^^ c) := by
  have hac := xor_lt_256 a c ha hc
  unfold signExt
  rcases Nat.mod_two_eq_zero_or_one m with hm | hm <;>
    rcases Nat.mod_two_eq_zero_or_one n with hn | hn
  · have h : (m + n) % 2 = 0 := by omega
    simp only [hm, hn, h]; rfl
  · have h : (m + n) % 2 = 1 := by omega
    simp only [hm, hn, h, if_true]
    rw [sub_256_eq_negSucc c hc, sub_256_eq_negSucc _ hac, ← xor_compl_right]; rfl
  · have h : (m + n) % 2 = 1 := by omega
    simp only [hm, hn, h, if_true]
    rw [sub_256_eq_negSucc a ha, sub_256_eq_negSucc _ hac, ← xor_compl_left]; rfl
  · have h : (m + n) % 2 = 0 := by omega
    simp only [hm, hn, h, if_true]
    rw [sub_256_eq_negSucc a ha, sub_256_eq_negSucc c hc]
    show ((((255 ^^^ a) ^^^ (255 ^^^ c) : Nat)) : Int) = _
    rw [xor_compl_both]; rfl

theorem highCount_cons (c : Byte) (s : List Byte) :
    highCount (c :: s) = (if 128 ≤ c.val then 1 else 0) + highCount s := by
  unfold highCount
  rw [List.countP_cons]
  by_cases h : 128 ≤ c.val
  · simp [h]; omega
  · simp [h]

theorem xorBytesFrom_lt (s : List Byte) : ∀ a : Nat, a < 256 → xorBytesFrom a s < 256 := by
  induction s with
  | nil => intro a ha; simpa [xorBytesFrom] using ha
  | cons c s ih =>
    intro a ha
    have h := ih (a ^^^ c.val) (xor_lt_256 a c.val ha c.isLt)
    simpa [xorBytesFrom] using h

theorem xorAcc_signed (s : List Byte) :
    ∀ (n a : Nat), a < 256 →
      xorAcc true (signExt n a) s = signExt (n + highCount s) (xorBytesFrom a s) := by
  induction s with
  | nil => intro n a _; simp [xorAcc, xorBytesFrom, highCount]
  | cons c s ih =>
    intro n a ha
    have step : Int.xor (signExt n a) (charVal true c)
        = signExt (n + (if 128 ≤ c.val then 1 else 0)) (a ^^^ c.val) := by
      rw [charVal_signed_eq, xor_signExt n _ a c.val ha c.isLt]
    have h := ih (n + (if 128 ≤ c.val then 1 else 0)) (a ^^^ c.val)
      (xor_lt_256 a c.val ha c.isLt)
    rw [highCount_cons, ← Nat.add_assoc]
    simpa [xorAcc, xorBytesFrom, step] using h

theorem xorAcc_of_low (charSigned : Bool) (s : List Byte) :
    ∀ (a : Nat), (∀ c ∈ s, charVal charSigned c = (c.val : Int)) →
      xorAcc charSigned (a : Int) s = (xorBytesFrom a s : Int) := by
  induction s with
  | nil => intro a _; simp [xorAcc, xorBytesFrom]
  | cons c s ih =>
    intro a h
    have hc := h c (List.mem_cons_self c s)
    have h1 := ih (a ^^^ c.val) (fun x hx => h x (List.mem_cons_of_mem c hx))
    have step : Int.xor (a : Int) (charVal charSigned c) = ((a ^^^ c.val : Nat) : Int) := by
      rw [hc]; rfl
    simpa [xorAcc, xorBytesFrom, step] using h1

theorem xorAcc_signed_zero (s : List Byte) :
    xorAcc true 0 s = signExt (highCount s) (xorBytes s) := by
  have h := xorAcc_signed s 0 0 (by decide)
  simpa [signExt, xorBytes] using h

theorem xorAcc_unsigned_zero (s : List Byte) :
    xorAcc false 0 s = (xorBytes s : Int) := by
  have h := xorAcc_of_low false s 0 (fun c _ => charVal_unsigned_eq c)
  simpa [xorBytes] using h

theorem scanPart_length_lt (s rest : List Byte) :
    (scanPart s).length < (s ++ 0 :: rest).length + 1 := by
  have h : (scanPart s).length ≤ s.length := by
    unfold scanPart
    exact (List.takeWhile_sublist _).length_le
  simp
  omega

/-- The run of the loop inside `csum` on any buffer that holds a NUL byte. -/
theorem csumLoop_buf (charSigned : Bool) (s rest : List Byte) :
    csumLoop charSigned (s ++ 0 :: rest) ((s ++ 0 :: rest).length + 1) 0 0
      = some ((scanPart s).length, xorAcc charSigned 0 (scanPart s)) := by
  obtain ⟨t, rest1, hsplit, ht⟩ := scanPart_split s rest
  have hlt := scanPart_length_lt s rest
  rw [hsplit] at hlt ⊢
  exact csumLoop_zero charSigned _ t rest1 _ (scanPart_scanned s) ht hlt

theorem signExt_ne_iff (n a : Nat) : signExt n a ≠ (a : Int) ↔ Odd n := by
  rw [Nat.odd_iff]
  unfold signExt
  rcases Nat.mod_two_eq_zero_or_one n with h | h
  · simp [h]
  · simp [h]

theorem signExt_range (n a : Nat) (h : a < 256) : -256 ≤ signExt n a ∧ signExt n a ≤ 255 := by
  unfold signExt
  split <;> omega

theorem xorBytes_lt (s : List Byte) : xorBytes s < 256 := xorBytesFrom_lt s 0 (by decide)

theorem and_255_of_lt (n : Nat) (h : n < 256) : n &&& 255 = n := by
  have h2 : (255 : Nat) = 2 ^ 8 - 1 := by norm_num
  rw [h2, Nat.and_pow_two_sub_one_eq_mod]
  exact Nat.mod_eq_of_lt h

/-- C11: the masked checksum does not depend on the signedness of `char`.
For every byte sequence `s`, XORing its bytes as sign-extended values and
masking with `0xff` gives the XOR of the unsigned byte values, and the
unmasked signed accumulator (always within `-256..255`) differs from the
unsigned one exactly when `s` has an odd number of bytes from `0x80` on. In
`csum` the two loops leave at the same index with these accumulators over the
scanned bytes, and the masked checksums are equal. -/
theorem checksum_signedness (s rest : List Byte) :
    (Int.land (xorAcc true 0 s) 0xff = (xorBytes s : Int) ∧
      xorAcc false 0 s = (xorBytes s : Int) ∧
      Int.land (xorAcc false 0 s) 0xff = (xorBytes s : Int) ∧
      (xorAcc true 0 s ≠ xorAcc false 0 s ↔ Odd (highCount s)) ∧
      -256 ≤ xorAcc true 0 s ∧ xorAcc true 0 s ≤ 255) ∧
    (csumLoop true (s ++ 0 :: rest) ((s ++ 0 :: rest).length + 1) 0 0
        = some ((scanPart s).length, xorAcc true 0 (scanPart s)) ∧
      csumLoop false (s ++ 0 :: rest) ((s ++ 0 :: rest).length + 1) 0 0
        = some ((scanPart s).length, xorAcc false 0 (scanPart s)) ∧
      csumValue true (s ++ 0 :: rest) = some (xorBytes (scanPart s) : Int) ∧
      csumValue false (s ++ 0 :: rest) = some (xorBytes (scanPart s) : Int)) := by
  have hmask : ∀ (b : Bool) (u : List Byte),
      Int.land (xorAcc b 0 u) 0xff = (xorBytes u : Int) := by
    intro b u
    have h := land_xorAcc_zero b u
    rw [and_255_of_lt _ (xorBytes_lt u)] at h
    exact h
  have hval : ∀ b : Bool, csumValue b (s ++ 0 :: rest) = some (xorBytes (scanPart s) : Int) := by
    intro b
    rw [csumValue_buf, and_255_of_lt _ (xorBytes_lt _)]
  refine ⟨⟨hmask true s, xorAcc_unsigned_zero s, hmask false s, ?_, ?_⟩,
    csumLoop_buf true s rest, csumLoop_buf false s rest, hval true, hval false⟩
  · rw [xorAcc_signed_zero, xorAcc_unsigned_zero]
    exact signExt_ne_iff _ _
  · rw [xorAcc_signed_zero]
    exact signExt_range _ _ (xorBytes_lt s)


/-! ## ASCII input -/

theorem xorBytesFrom_lt_128 (s : List Byte) :
    ∀ a : Nat, a < 128 → (∀ b ∈ s, b.val ≤ 127) → xorBytesFrom a s < 128 := by
  induction s with
  | nil => intro a ha _; simpa [xorBytesFrom] using ha
  | cons c s ih =>
    intro a ha h
    have hc : c.val < 2 ^ 7 := by
      have := h c (List.mem_cons_self c s)
      omega
    have hx : a ^^^ c.val < 128 := Nat.xor_lt_two_pow (n := 7) ha hc
    have h1 := ih (a ^^^ c.val) hx (fun x hx => h x (List.mem_cons_of_mem c hx))
    simpa [xorBytesFrom] using h1

theorem low_of_all (l : List Byte) (h : l.all (fun b => decide (b.val ≤ 127)) = true) :
    ∀ b ∈ l, b.val ≤ 127 := by
  simpa using h

/-- The run of `csum` on a buffer whose scanned bytes are all 7-bit. -/
theorem csum_low (charSigned : Bool) (s rest : List Byte)
    (h : ∀ b ∈ scanPart s, b.val ≤ 127) :
    ∃ (k : Nat) (cs : Int),
      csumLoop charSigned (s ++ 0 :: rest) ((s ++ 0 :: rest).length + 1) 0 0 = some (k, cs) ∧
      0 ≤ cs ∧ cs ≤ 127 ∧ Int.land cs 0xff = cs ∧
      csumValue charSigned (s ++ 0 :: rest) = some cs := by
  have hacc : xorAcc charSigned 0 (scanPart s) = (xorBytes (scanPart s) : Int) :=
    xorAcc_of_low charSigned (scanPart s) 0 (fun c hc => charVal_low_eq charSigned c (h c hc))
  have hlt : xorBytes (scanPart s) < 128 := xorBytesFrom_lt_128 _ 0 (by decide) h
  have hland : Int.land (xorBytes (scanPart s) : Int) 0xff = (xorBytes (scanPart s) : Int) := by
    rw [land_natCast, and_255_of_lt _ (by omega)]
  refine ⟨(scanPart s).length, (xorBytes (scanPart s) : Int), ?_, by omega, by omega, hland, ?_⟩
  · rw [csumLoop_buf, hacc]
  · rw [csumValue_buf, and_255_of_lt _ (by omega)]

/-- C12: when all the scanned bytes of the input are 7-bit ASCII (`0..127`),
the accumulator is in `0..127` when the loop is left, `cs &= 0xff` leaves it
unchanged, and that value, at most 127, is the checksum printed; this is the
case for each of the six commands of `main`. -/
theorem csum_ascii (charSigned : Bool) (s rest out : List Byte)
    (h : ∀ b ∈ scanPart s, b.val ≤ 127) :
    (∃ (k : Nat) (cs : Int) (str : List Byte),
      csumLoop charSigned (s ++ 0 :: rest) ((s ++ 0 :: rest).length + 1) 0 0 = some (k, cs) ∧
      0 ≤ cs ∧ cs ≤ 127 ∧ Int.land cs 0xff = cs ∧
      csumValue charSigned (s ++ 0 :: rest) = some cs ∧
      csum charSigned (s ++ 0 :: rest) out
        = some (out ++ str ++ [star] ++ fmtU cs ++ [newline])) ∧
    (∀ cmd ∈ mainCommands, ∃ (k : Nat) (cs : Int),
      csumLoop charSigned cmd (cmd.length + 1) 0 0 = some (k, cs) ∧
      0 ≤ cs ∧ cs ≤ 127 ∧ Int.land cs 0xff = cs ∧
      csumValue charSigned cmd = some cs) := by
  constructor
  · obtain ⟨k, cs, h1, h2, h3, h4, h5⟩ := csum_low charSigned s rest h
    refine ⟨k, cs, s.takeWhile (fun c => decide (c ≠ 0)), h1, h2, h3, h4, h5, ?_⟩
    have hb := csum_buf charSigned s rest out
    rw [csumValue_buf] at h5
    rw [hb, Option.some.inj h5]
  · intro cmd hcmd
    simp only [mainCommands, List.mem_cons, List.mem_singleton, List.not_mem_nil, or_false]
      at hcmd
    rcases hcmd with e | e | e | e | e | e <;> subst e
    · exact csum_low charSigned (bytesOf "M408 S0") [] (low_of_all _ (by decide))
    · exact csum_low charSigned (bytesOf "M24") [] (low_of_all _ (by decide))
    · exact csum_low charSigned (bytesOf "M25") [] (low_of_all _ (by decide))
    · exact csum_low charSigned (bytesOf "M112") [] (low_of_all _ (by decide))
    · exact csum_low charSigned (bytesOf "M118 P2 S\"//action:pause\"") []
        (low_of_all _ (by decide))
    · exact csum_low charSigned (bytesOf "M118 P2 S\"//action:resume\"") []
        (low_of_all _ (by decide))

/-- Witness of C12 at the string `M24*` followed by the byte `0xE9`, which is
not scanned. -/
theorem csum_ascii_witness :
    (∀ b ∈ scanPart (bytesOf "M24*" ++ [233]), b.val ≤ 127) ∧
      ∃ (k : Nat) (cs : Int) (str : List Byte),
        csumLoop true (bytesOf "M24*" ++ [233] ++ 0 :: [])
          ((bytesOf "M24*" ++ [233] ++ 0 :: []).length + 1) 0 0 = some (k, cs) ∧
        0 ≤ cs ∧ cs ≤ 127 ∧ Int.land cs 0xff = cs ∧
        csumValue true (bytesOf "M24*" ++ [233] ++ 0 :: []) = some cs ∧
        csum true (bytesOf "M24*" ++ [233] ++ 0 :: []) []
          = some ([] ++ str ++ [star] ++ fmtU cs ++ [newline]) :=
  ⟨low_of_all _ (by decide),
    (csum_ascii true (bytesOf "M24*" ++ [233]) [] [] (low_of_all _ (by decide))).1⟩


/-! ## Algebra of the checksum -/

theorem scanPart_nil : scanPart [] = [] := rfl

theorem scanPart_cons_scanned (c : Byte) (s : List Byte) (h : scanned c) :
    scanPart (c :: s) = c :: scanPart s := by
  unfold scanPart
  rw [List.takeWhile_cons]
  simp [h]

theorem scanPart_cons_stop (c : Byte) (s : List Byte) (h : ¬ scanned c) :
    scanPart (c :: s) = [] := by
  unfold scanPart
  rw [List.takeWhile_cons]
  simp [h]

theorem scanPart_append_of_scanned (s t : List Byte) (h : ∀ c ∈ s, scanned c) :
    scanPart (s ++ t) = s ++ scanPart t := by
  induction s with
  | nil => rfl
  | cons c s ih =>
    rw [List.cons_append, scanPart_cons_scanned c _ (h c (List.mem_cons_self c s)),
      ih (fun x hx => h x (List.mem_cons_of_mem c hx)), List.cons_append]

theorem scanPart_append_cases (s t : List Byte) :
    (∀ c ∈ s, scanned c) ∨ scanPart (s ++ t) = scanPart s := by
  induction s with
  | nil => left; intro c hc; cases hc
  | cons c s ih =>
    by_cases hc : scanned c
    · rcases ih with h | h
      · left
        intro x hx
        rcases List.mem_cons.mp hx with e | e
        · exact e ▸ hc
        · exact h x e
      · right
        rw [List.cons_append, scanPart_cons_scanned c _ hc, scanPart_cons_scanned c _ hc, h]
    · right
      rw [List.cons_append, scanPart_cons_stop c _ hc, scanPart_cons_stop c _ hc]

theorem scanPart_append_star (s t : List Byte) : scanPart (s ++ star :: t) = scanPart s := by
  rcases scanPart_append_cases s (star :: t) with h | h
  · rw [scanPart_append_of_scanned s _ h, scanPart_cons_stop star t not_scanned_star]
    have h1 := scanPart_append_of_scanned s [] h
    rw [List.append_nil] at h1
    rw [h1, scanPart_nil]
  · exact h

theorem xorBytesFrom_eq (s : List Byte) : ∀ a : Nat, xorBytesFrom a s = a ^^^ xorBytes s := by
  induction s with
  | nil => intro a; simp [xorBytes, xorBytesFrom]
  | cons c s ih =>
    intro a
    have h1 : xorBytesFrom a (c :: s) = xorBytesFrom (a ^^^ c.val) s := rfl
    have h2 : xorBytes (c :: s) = xorBytesFrom (0 ^^^ c.val) s := rfl
    rw [h1, h2, ih, ih, Nat.zero_xor, Nat.xor_assoc]

theorem xorBytes_cons (c : Byte) (s : List Byte) : xorBytes (c :: s) = c.val ^^^ xorBytes s := by
  have h : xorBytes (c :: s) = xorBytesFrom (0 ^^^ c.val) s := rfl
  rw [h, xorBytesFrom_eq, Nat.zero_xor]

theorem xorBytes_append (s t : List Byte) : xorBytes (s ++ t) = xorBytes s ^^^ xorBytes t := by
  induction s with
  | nil => simp [xorBytes, xorBytesFrom]
  | cons c s ih => rw [List.cons_append, xorBytes_cons, xorBytes_cons, ih, Nat.xor_assoc]

theorem xorBytes_perm (s t : List Byte) (h : s.Perm t) : xorBytes s = xorBytes t := by
  induction h with
  | nil => rfl
  | cons c _ ih => rw [xorBytes_cons, xorBytes_cons, ih]
  | swap a b l =>
    rw [xorBytes_cons, xorBytes_cons, xorBytes_cons, xorBytes_cons, ← Nat.xor_assoc,
      ← Nat.xor_assoc, Nat.xor_comm b.val a.val]
  | trans _ _ ih1 ih2 => rw [ih1, ih2]

theorem scanPart_of_scanned (s : List Byte) (h : ∀ c ∈ s, scanned c) : scanPart s = s := by
  have h1 := scanPart_append_of_scanned s [] h
  rw [List.append_nil] at h1
  rw [h1, scanPart_nil, List.append_nil]

/-- C13: the printed line checks against itself. For every string `s`, the
line `csum` prints is `s`, a `*` and the decimal checksum, then the line
break; the checksum `csum` computes of that line without the line break is
the checksum the line carries: `checksum(s ++ "*" ++ digits) = checksum(s)`. -/
theorem csum_line_recheck (charSigned : Bool) (s rest rest1 : List Byte)
    (hnul : (0 : Byte) ∉ s) :
    ∃ (v : Int) (line : List Byte),
      csumValue charSigned (s ++ 0 :: rest) = some v ∧
      line = s ++ [star] ++ fmtU v ∧
      csum charSigned (s ++ 0 :: rest) [] = some (line ++ [newline]) ∧
      csumValue charSigned (line ++ 0 :: rest1) = some v := by
  refine ⟨((xorBytes (scanPart s) &&& 255 : Nat) : Int), _, csumValue_buf charSigned s rest,
    rfl, ?_, ?_⟩
  · have h := csum_str charSigned s rest [] hnul
    rw [← scanPart_of_no_nul s hnul] at h
    simpa using h
  · rw [csumValue_buf, List.append_assoc, List.singleton_append, scanPart_append_star]

/-- Witness of C13 at the string `M24`: the line `M24*75` has checksum 75. -/
theorem csum_line_recheck_witness :
    (0 : Byte) ∉ bytesOf "M24" ∧
      ∃ (v : Int) (line : List Byte),
        csumValue false (bytesOf "M24" ++ 0 :: []) = some v ∧
        line = bytesOf "M24" ++ [star] ++ fmtU v ∧
        csum false (bytesOf "M24" ++ 0 :: []) [] = some (line ++ [newline]) ∧
        csumValue false (line ++ 0 :: []) = some v :=
  ⟨by decide, csum_line_recheck false (bytesOf "M24") [] [] (by decide)⟩

/-- C14: the checksum is an XOR homomorphism over concatenation. For every
string `s` with no `*` and no NUL and every `t`, the checksum of `s ++ t` is
the XOR of the checksums of `s` and of `t`; so every permutation of `s` has
the checksum of `s`, and appending `s` twice to `t` leaves the checksum of
`t` unchanged. -/
theorem csum_xor_hom (charSigned : Bool) (s t rest : List Byte)
    (hstar : star ∉ s) (hnul : (0 : Byte) ∉ s) :
    (∃ (a b : Int), csumValue charSigned (s ++ 0 :: rest) = some a ∧
      csumValue charSigned (t ++ 0 :: rest) = some b ∧
      csumValue charSigned (s ++ t ++ 0 :: rest) = some (Int.xor a b)) ∧
    (∀ s1 : List Byte, s.Perm s1 →
      csumValue charSigned (s1 ++ 0 :: rest) = csumValue charSigned (s ++ 0 :: rest)) ∧
    csumValue charSigned (t ++ s ++ s ++ 0 :: rest) = csumValue charSigned (t ++ 0 :: rest) := by
  have hs := scanned_of_not_mem s hstar hnul
  refine ⟨⟨_, _, csumValue_buf charSigned s rest, csumValue_buf charSigned t rest, ?_⟩, ?_, ?_⟩
  · rw [csumValue_buf, scanPart_append_of_scanned s t hs, scanPart_of_scanned s hs,
      xorBytes_append, Nat.and_xor_distrib_right]
    rfl
  · intro s1 hp
    have hs1 : ∀ c ∈ s1, scanned c := fun c hc => hs c (hp.mem_iff.mpr hc)
    rw [csumValue_buf, csumValue_buf, scanPart_of_scanned s hs, scanPart_of_scanned s1 hs1,
      xorBytes_perm s s1 hp]
  · rw [csumValue_buf, csumValue_buf]
    rcases scanPart_append_cases t (s ++ s) with h | h
    · have hss : ∀ c ∈ s ++ s, scanned c := by
        intro c hc
        rcases List.mem_append.mp hc with e | e <;> exact hs c e
      rw [List.append_assoc, scanPart_append_of_scanned t _ h, scanPart_of_scanned _ hss,
        scanPart_of_scanned t h, xorBytes_append, xorBytes_append, Nat.xor_self, Nat.xor_zero]
    · rw [List.append_assoc, h]

/-- Witness of C14 at `s = "M24"` and `t = "AB*CD"`. -/
theorem csum_xor_hom_witness :
    star ∉ bytesOf "M24" ∧ (0 : Byte) ∉ bytesOf "M24" ∧
      ((∃ (a b : Int), csumValue true (bytesOf "M24" ++ 0 :: []) = some a ∧
        csumValue true (bytesOf "AB*CD" ++ 0 :: []) = some b ∧
        csumValue true (bytesOf "M24" ++ bytesOf "AB*CD" ++ 0 :: []) = some (Int.xor a b)) ∧
      (∀ s1 : List Byte, (bytesOf "M24").Perm s1 →
        csumValue true (s1 ++ 0 :: []) = csumValue true (bytesOf "M24" ++ 0 :: [])) ∧
      csumValue true (bytesOf "AB*CD" ++ bytesOf "M24" ++ bytesOf "M24" ++ 0 :: [])
        = csumValue true (bytesOf "AB*CD" ++ 0 :: [])) :=
  ⟨by decide, by decide,
    csum_xor_hom true (bytesOf "M24") (bytesOf "AB*CD") [] (by decide) (by decide)⟩

end GenCsum
